import Mathlib

/-!
Shallow embedding of the incremental directory-listing core of the
harbour-file-browser repository: the diff engine and directory worker
(`FileModelWorker` in filemodelworker.cpp), the directory model
(`FileModel` in filemodel.cpp) and the recursive search worker
(`SearchWorker` in searchworker.cpp).

Machine integers (`int`, `qint64`) are modelled as `Nat`/`Int`; directory
sizes are far below 2^31 so overflow never matters for the modelled code
paths.  Qt signal emissions are modelled as explicit event lists.  The
cancellation flag of the workers is modelled where a claim mentions it
(search worker: an explicit monotone schedule read at each check); the
diff-engine theorems describe the uncancelled execution, which is the only
execution that reaches the `done` signal.
-/

namespace FileBrowser

/-- One filesystem entry as cached by `StatFileInfo`: the six identity
attributes used by the diff (name, size, permissions, last-modified,
symlink flag, resolved-directory flag) plus the transient UI flags
(selected / filter-matched / doomed) and the absolute path. -/
structure StatFileInfo where
  fileName : String
  absoluteFilePath : String
  size : Nat
  permissions : Nat
  lastModified : Nat
  isSymLink : Bool
  isDirAtEnd : Bool
  isSelected : Bool
  isMatched : Bool
  isDoomed : Bool
deriving DecidableEq, Inhabited, Repr

/-- The identity comparison performed inline by both copies of
`filesContains` (FileModelWorker::filesContains and
FileModel::filesContains): equality of the six identity attributes,
ignoring the transient selected/matched/doomed flags. -/
def identEq (f g : StatFileInfo) : Bool :=
  f.fileName == g.fileName &&
  f.size == g.size &&
  f.permissions == g.permissions &&
  f.lastModified == g.lastModified &&
  f.isSymLink == g.isSymLink &&
  f.isDirAtEnd == g.isDirAtEnd

/-- Model of `FileModelWorker::filesContains` / `FileModel::filesContains`:
whether `files` holds an entry identity-equal to `fileData`. -/
def filesContains (files : List StatFileInfo) (fileData : StatFileInfo) : Bool :=
  files.any (fun f => identEq f fileData)

/-- One edit emitted by the diff-mode read: `entryRemoved(i, e)` or
`entryAdded(i, e)`. -/
inductive Edit where
  | remove (i : Nat) (e : StatFileInfo)
  | insert (i : Nat) (e : StatFileInfo)
deriving DecidableEq, Repr

/-- Applying a single edit to a list the way `FileModel::refreshEntries`
applies the worker's signals: `remove i` deletes index `i`, `insert i e`
inserts `e` at index `i`. -/
def applyEdit (l : List StatFileInfo) : Edit → List StatFileInfo
  | .remove i _ => l.eraseIdx i
  | .insert i e => l.insertIdx i e

/-- Applying a whole edit sequence in emission order. -/
def applyEdits (edits : List Edit) (l : List StatFileInfo) : List StatFileInfo :=
  edits.foldl applyEdit l

/-- The removal pass of `FileModelWorker::doReadDiff`: the `for` loop that
walks `m_oldEntries` from index `count-1` down to `0`, emits
`entryRemoved(i, data)` for every old entry with no identity-equal entry
in `newFiles`, and deletes index `i` from `m_finalEntries`.
`removePass old newF i fin` runs the loop body for indices
`i-1, i-2, ..., 0` with working list `fin`. -/
def removePass (old newF : List StatFileInfo) : Nat → List StatFileInfo →
    List Edit × List StatFileInfo
  | 0, fin => ([], fin)
  | i + 1, fin =>
    let data := old.getD i default
    if !filesContains newF data then
      let res := removePass old newF i (fin.eraseIdx i)
      (Edit.remove i data :: res.1, res.2)
    else
      removePass old newF i fin

/-- The insertion pass of `FileModelWorker::doReadDiff`: the `for` loop
that walks `newFiles` from index `0` upward, emits `entryAdded(i, data)`
for every new entry with no identity-equal entry in `m_oldEntries`
(`checkList`, constant during the loop), and inserts it into
`m_finalEntries` at index `i`.  `insertPass checkList i rest fin` runs
the loop from index `i` with the remaining new entries `rest`. -/
def insertPass (checkList : List StatFileInfo) : Nat → List StatFileInfo →
    List StatFileInfo → List Edit × List StatFileInfo
  | _, [], fin => ([], fin)
  | i, data :: rest, fin =>
    if !filesContains checkList data then
      let res := insertPass checkList (i + 1) rest (fin.insertIdx i data)
      (Edit.insert i data :: res.1, res.2)
    else
      insertPass checkList (i + 1) rest fin

/-- Model of `FileModelWorker::doReadDiff` on already-stated entries (the
uncancelled run): the removal pass over `oldEntries` against the freshly
read `newFiles`, the `haveRemoved` baseline swap, then the insertion
pass.  Returns the edits in emission order together with
`m_finalEntries` as it stands at the `done(m_mode, m_finalEntries)`
signal. -/
def doReadDiff (oldEntries newFiles : List StatFileInfo) :
    List Edit × List StatFileInfo :=
  let rem := removePass oldEntries newFiles oldEntries.length oldEntries
  let haveRemoved := !rem.1.isEmpty
  let checkList := if haveRemoved then rem.2 else oldEntries
  let ins := insertPass checkList 0 newFiles rem.2
  (rem.1 ++ ins.1, ins.2)

/-! ## Directory model (`FileModel`, filemodel.cpp)

The model state keeps the members of `FileModel` that the modelled
operations read or write: `m_files`, `m_selectedFileCount`,
`m_matchedFileCount` and `m_filterString`.  Qt signal emissions
(`dataChanged`, `selectedFileCountChanged`, ...) are returned as an
explicit event list; `dataChanged(topLeft, bottomRight)` on a single row
is modelled as `dataChanged row`. -/

/-- Signals emitted by `FileModel`, as far as the claims mention them. -/
inductive MEvent where
  | dataChanged (row : Int)
  | selectedFileCountChanged
  | filteredFileCountChanged
  | fileCountChanged
  | errorMessageChanged
  | filterStringChanged
deriving DecidableEq, Repr

/-- The modelled members of `FileModel`. -/
structure ModelState where
  files : List StatFileInfo
  selectedFileCount : Int
  matchedFileCount : Int
  filterString : String
deriving DecidableEq, Repr

/-- Model of `FileModel::fileNameAt`: absolute path at an index, empty string on
an out-of-range index. -/
def fileNameAt (s : ModelState) (fileIndex : Int) : String :=
  if fileIndex < 0 || (s.files.length : Int) ≤ fileIndex then ""
  else (s.files.getD fileIndex.toNat default).absoluteFilePath

/-- Model of `FileModel::toggleSelectedFile`: fails silently on an out-of-range
index; otherwise flips the entry's selected flag, adjusts
`m_selectedFileCount` and emits `dataChanged` plus
`selectedFileCountChanged`. -/
def toggleSelectedFile (s : ModelState) (fileIndex : Int) :
    ModelState × List MEvent :=
  if (s.files.length : Int) ≤ fileIndex || fileIndex < 0 then (s, [])
  else
    let i := fileIndex.toNat
    let info := s.files.getD i default
    let upd :=
      if !info.isSelected then
        ({ info with isSelected := true }, s.selectedFileCount + 1)
      else
        ({ info with isSelected := false }, s.selectedFileCount - 1)
    ({ s with files := s.files.set i upd.1, selectedFileCount := upd.2 },
     [MEvent.dataChanged fileIndex, MEvent.selectedFileCountChanged])

/-- The row loop of `FileModel::selectRange`: touches only rows inside
the inclusive `[firstIndex, lastIndex]` range that are filter-matched and
whose selection differs, and counts the selected entries it leaves
behind.  Returns (new rows, `dataChanged` events, selected count). -/
def selectRangeLoop (firstIndex lastIndex : Int) (selected : Bool) :
    List StatFileInfo → Int → List StatFileInfo × List MEvent × Int
  | [], _ => ([], [], 0)
  | info :: rest, row =>
    let step :=
      if firstIndex ≤ row ∧ row ≤ lastIndex ∧ info.isMatched = true ∧
          info.isSelected ≠ selected then
        ({ info with isSelected := selected }, [MEvent.dataChanged row])
      else (info, ([] : List MEvent))
    let res := selectRangeLoop firstIndex lastIndex selected rest (row + 1)
    (step.1 :: res.1, step.2 ++ res.2.1,
     (if step.1.isSelected then 1 else 0) + res.2.2)

/-- Model of `FileModel::selectRange`: fails silently if either bound is out of
range, swaps reversed bounds, bulk-applies the selection value and
republishes `m_selectedFileCount` when it changed. -/
def selectRange (s : ModelState) (firstIndex lastIndex : Int)
    (selected : Bool) : ModelState × List MEvent :=
  if (s.files.length : Int) ≤ firstIndex ∨ firstIndex < 0 ∨
      (s.files.length : Int) ≤ lastIndex ∨ lastIndex < 0 then (s, [])
  else
    let lo := if lastIndex < firstIndex then lastIndex else firstIndex
    let hi := if lastIndex < firstIndex then firstIndex else lastIndex
    let res := selectRangeLoop lo hi selected s.files 0
    if res.2.2 ≠ s.selectedFileCount then
      ({ s with files := res.1, selectedFileCount := res.2.2 },
       res.2.1 ++ [MEvent.selectedFileCountChanged])
    else
      ({ s with files := res.1 }, res.2.1)

/-- The row loop of `FileModel::selectAllFiles`: selects every
filter-matched row and counts them. -/
def selectAllLoop : List StatFileInfo → Int →
    List StatFileInfo × List MEvent × Int
  | [], _ => ([], [], 0)
  | info :: rest, row =>
    let res := selectAllLoop rest (row + 1)
    if info.isMatched = false then (info :: res.1, res.2.1, res.2.2)
    else ({ info with isSelected := true } :: res.1,
      MEvent.dataChanged row :: res.2.1, res.2.2 + 1)

/-- Model of `FileModel::selectAllFiles`. -/
def selectAllFiles (s : ModelState) : ModelState × List MEvent :=
  let res := selectAllLoop s.files 0
  ({ s with files := res.1, selectedFileCount := res.2.2 },
   res.2.1 ++ [MEvent.selectedFileCountChanged])

/-- The row loop of `FileModel::markSelectedAsDoomed`: every selected
row becomes doomed and deselected ("doomed files can't be selected"). -/
def doomSelectedLoop : List StatFileInfo → Int →
    List StatFileInfo × List MEvent
  | [], _ => ([], [])
  | info :: rest, i =>
    let step :=
      if info.isSelected then
        ({ info with isDoomed := true, isSelected := false },
         [MEvent.dataChanged i])
      else (info, ([] : List MEvent))
    let res := doomSelectedLoop rest (i + 1)
    (step.1 :: res.1, step.2 ++ res.2)

/-- Model of `FileModel::markSelectedAsDoomed` (note: the source does not update
`m_selectedFileCount` here). -/
def markSelectedAsDoomed (s : ModelState) : ModelState × List MEvent :=
  let res := doomSelectedLoop s.files 0
  ({ s with files := res.1 }, res.2)

/-- The row loop of `FileModel::markAsDoomed`: rows whose absolute path
is in the given list become doomed and deselected. -/
def doomPathsLoop (absoluteFilePaths : List String) :
    List StatFileInfo → Int → List StatFileInfo × List MEvent
  | [], _ => ([], [])
  | info :: rest, i =>
    let step :=
      if absoluteFilePaths.contains info.absoluteFilePath then
        ({ info with isDoomed := true, isSelected := false },
         [MEvent.dataChanged i])
      else (info, ([] : List MEvent))
    let res := doomPathsLoop absoluteFilePaths rest (i + 1)
    (step.1 :: res.1, step.2 ++ res.2)

/-- Model of `FileModel::markAsDoomed`. -/
def markAsDoomed (s : ModelState) (absoluteFilePaths : List String) :
    ModelState × List MEvent :=
  let res := doomPathsLoop absoluteFilePaths s.files 0
  ({ s with files := res.1 }, res.2)

/-! ### The filter pattern

`FileModel::applyFilterString` turns `m_filterString` into a
`QRegularExpression` by the replacements `"." → "\\."`, `"?" → "."`,
`"*" → ".*?"` (mutating `m_filterString` in place), falls back to the
pattern `".*"` when the string is empty, and tests each file name with a
case-insensitive, unanchored `match(...).hasMatch()`.  The translated
pattern is a regex built from literals (possibly escaped), `.` and the
lazy `.*?`; laziness does not affect `hasMatch`.  We embed that regex
fragment as a token list: `lit c` (literal character, case-insensitive),
`anyOne` (regex `.`), `anyStar` (regex `.*?`). -/

/-- One token of the translated filter pattern. -/
inductive GTok where
  | lit (c : Char)
  | anyOne
  | anyStar
deriving DecidableEq, Repr

/-- Reading the translated pattern back as regex tokens: `\\c` is a
literal, `.*?` is the lazy any-sequence, a bare `.` (only ever produced
from `?`) matches any one character, anything else is a literal. -/
def parseRx : List Char → List GTok
  | [] => []
  | '\\' :: c :: rest => GTok.lit c :: parseRx rest
  | '.' :: '*' :: '?' :: rest => GTok.anyStar :: parseRx rest
  | '.' :: rest => GTok.anyOne :: parseRx rest
  | c :: rest => GTok.lit c :: parseRx rest

/-- The token `.*?` consumes any (possibly empty) prefix: run the continuation on
every suffix of `xs` (laziness does not affect `hasMatch`). -/
def starRun (k : List Char → Bool) : List Char → Bool
  | [] => k []
  | x :: xs => k (x :: xs) || starRun k xs

/-- Anchored regex matching of the token list at the start of `xs`
(case-insensitively, as compiled with CaseInsensitiveOption). -/
def matchHere : List GTok → List Char → Bool
  | [], _ => true
  | GTok.lit c :: ps, xs =>
    match xs with
    | [] => false
    | x :: xs' => (x.toLower == c.toLower) && matchHere ps xs'
  | GTok.anyOne :: ps, xs =>
    match xs with
    | [] => false
    | _ :: xs' => matchHere ps xs'
  | GTok.anyStar :: ps, xs => starRun (fun ys => matchHere ps ys) xs

/-- Unanchored matching: `QRegularExpression::match(...).hasMatch()`
searches for a match at every position. -/
def matchAnywhere (p : List GTok) : List Char → Bool
  | [] => matchHere p []
  | x :: xs => matchHere p (x :: xs) || matchAnywhere p xs

/-- Model of `QString::replace(".", "\\.")`: every `.` becomes `\.`.  (Single-char
search patterns cannot overlap, so the in-order full replace is a
character-by-character expansion.) -/
def escapeDots : List Char → List Char
  | [] => []
  | c :: rest =>
    if c = '.' then '\\' :: '.' :: escapeDots rest else c :: escapeDots rest

/-- Model of `QString::replace("?", ".")`. -/
def qmarkToDot : List Char → List Char
  | [] => []
  | c :: rest => (if c = '?' then '.' else c) :: qmarkToDot rest

/-- Model of `QString::replace("*", ".*?")`. -/
def starToLazy : List Char → List Char
  | [] => []
  | c :: rest =>
    if c = '*' then '.' :: '*' :: '?' :: starToLazy rest else c :: starToLazy rest

/-- The in-place `QString::replace` pipeline applied to
`m_filterString`, on the character list. -/
def translateFilter (s : List Char) : List Char :=
  starToLazy (qmarkToDot (escapeDots s))

/-- The row loop of `FileModel::applyFilterString`: re-evaluates the
match state of every row, deselects rows that stop matching, counts
matched rows and (after any update) selected rows.
Returns (new rows, `dataChanged` events, matched count, selected count). -/
def filterLoop (pat : List GTok) :
    List StatFileInfo → Int → List StatFileInfo × List MEvent × Nat × Int
  | [], _ => ([], [], 0, 0)
  | info :: rest, row =>
    let isM := matchAnywhere pat info.fileName.data
    let step :=
      if info.isMatched ≠ isM ∨ (isM = false ∧ info.isSelected = true) then
        (if isM then { info with isMatched := isM }
         else { info with isMatched := isM, isSelected := false },
         [MEvent.dataChanged row])
      else (info, ([] : List MEvent))
    let res := filterLoop pat rest (row + 1)
    (step.1 :: res.1, step.2 ++ res.2.1,
     (if isM then 1 else 0) + res.2.2.1,
     (if step.1.isSelected then 1 else 0) + res.2.2.2)

/-- Model of `FileModel::applyFilterString`: translates the stored filter string
(mutating it), compiles the pattern (falling back to `".*"` when empty),
runs the row loop, stores the new matched count (without emitting
`filteredFileCountChanged` — only `recountSelectedFiles` emits that
signal), and republishes `m_selectedFileCount` when it changed. -/
def applyFilterString (s : ModelState) : ModelState × List MEvent :=
  let translated := translateFilter s.filterString.data
  let pat := if translated = [] then [GTok.anyStar] else parseRx translated
  let res := filterLoop pat s.files 0
  let base := { s with
    filterString := String.mk translated
    files := res.1
    matchedFileCount := (res.2.2.1 : Int) }
  if res.2.2.2 ≠ s.selectedFileCount then
    ({ base with selectedFileCount := res.2.2.2 },
     res.2.1 ++ [MEvent.selectedFileCountChanged])
  else (base, res.2.1)

/-- Model of `FileModel::setFilterString`: stores the new filter string and emits
`filterStringChanged`, whose connected slot runs `applyFilterString`. -/
def setFilterString (s : ModelState) (newFilter : String) :
    ModelState × List MEvent :=
  let s1 := { s with filterString := newFilter }
  let res := applyFilterString s1
  (res.1, MEvent.filterStringChanged :: res.2)

/-! ## Search worker (`SearchWorker`, searchworker.cpp)

`searchRecursively` walks the filesystem through path lookups.  The
cancellation flag (`m_cancelled`, set asynchronously by `cancel()` and
read with `loadAcquire` at each check) is modelled by a schedule
`sched : Nat → Bool` consulted at a counter that advances by one at each
check; a monotone schedule models a flag that, once set, stays set.
Every emitted signal is timestamped with the counter at emission. -/

/-- What the filesystem reports for one directory path:
`QFileInfo::isSymLink`, `QDir` existence and the two `entryList` calls
(plain files, then `NoDotAndDotDot | AllDirs`). -/
structure DirInfo where
  isLink : Bool
  files : List String
  dirs : List String
deriving DecidableEq, Repr

/-- The filesystem as seen through path lookups.  `lookup p = none` is a
non-existent directory.  `clean p` abstracts "no ancestor component of
`p` is a symlink"; `cleanChild` closes it under entering an existing
non-symlink directory, and `bounded` expresses the finiteness of the
real directory tree: clean existing paths have bounded length.  A
symlink cycle is representable — the symlink's path exists and its
listing may mirror the ancestor's — but the search never enters it. -/
structure SFS where
  lookup : String → Option DirInfo
  clean : String → Prop
  cleanChild : ∀ p d n, clean p → lookup p = some d → d.isLink = false →
    clean (p ++ "/" ++ n)
  maxPathLen : Nat
  bounded : ∀ p d, clean p → lookup p = some d → p.length ≤ maxPathLen

/-- Whether `n` is a prefix of `h`, on character lists. -/
def isPfx : List Char → List Char → Bool
  | [], _ => true
  | _ :: _, [] => false
  | n :: ns, h :: hs => n == h && isPfx ns hs

/-- Model of `hay.indexOf(needle) >= 0` (Qt `QString::indexOf` substring test; an
empty needle is found at index 0). -/
def hasSubstr : List Char → List Char → Bool
  | [], needle => needle.isEmpty
  | h :: hs, needle => isPfx needle (h :: hs) || hasSubstr hs needle

/-- Signals of `SearchWorker` emitted during the recursive walk. -/
inductive SEvent where
  | progress (dir : String)
  | matchFound (path : String)
deriving DecidableEq, Repr

/-- The file loop of `SearchWorker::searchRecursively`: for each file
name, first the cancellation check (the counter advances; a true read
returns immediately), then the case-insensitive substring match and its
`matchFound` emission (`dir.absoluteFilePath(filename)` is the path
join).  Returns (timestamped events, final counter, cancelled?). -/
def fileLoop (sched : Nat → Bool) (term : List Char) (directory : String) :
    List String → Nat → List (Nat × SEvent) × Nat × Bool
  | [], c => ([], c, false)
  | name :: rest, c =>
    if sched c then ([], c + 1, true)
    else
      let evs := if hasSubstr (name.data.map Char.toLower) term then
          [(c + 1, SEvent.matchFound (directory ++ "/" ++ name))]
        else []
      let res := fileLoop sched term directory rest (c + 1)
      (evs ++ res.1, res.2.1, res.2.2)

/-- The directory loop of `searchRecursively`: cancellation check (a
true read returns `QString()`, i.e. no error), substring match emission,
recursion into the subdirectory through `child`, and first-error-wins
propagation.  `child` is instantiated with `searchRec` at the remaining
fuel. -/
def dirLoopGo (sched : Nat → Bool) (term : List Char)
    (child : String → Nat → Option (List (Nat × SEvent) × String × Nat))
    (directory : String) :
    List String → Nat → Option (List (Nat × SEvent) × String × Nat)
  | [], c => some ([], "", c)
  | name :: rest, c =>
    if sched c then some ([], "", c + 1)
    else
      let fullpath := directory ++ "/" ++ name
      let evs := if hasSubstr (name.data.map Char.toLower) term then
          [(c + 1, SEvent.matchFound fullpath)]
        else []
      match child fullpath (c + 1) with
      | none => none
      | some r =>
        if r.2.1 ≠ "" then some (evs ++ r.1, r.2.1, r.2.2)
        else
          match dirLoopGo sched term child directory rest r.2.2 with
          | none => none
          | some r2 => some (evs ++ r.1 ++ r2.1, r2.2.1, r2.2.2)

/-- Model of `SearchWorker::searchRecursively` with explicit fuel bounding the
recursion depth (`none` = fuel exhausted; the termination theorem shows
a computable bound always suffices).  In order: the `/proc` and
`/sys/block` skip, the symlink skip, the existence check (a non-existent
`QFileInfo` reports `isSymLink() = false`, so checking the looked-up
info first returns the same empty result), the `progressChanged`
emission, the file loop and the directory loop.
Returns (timestamped events, error string, final counter). -/
def searchRec (fs : SFS) (sched : Nat → Bool) (term : List Char) :
    Nat → String → Nat → Option (List (Nat × SEvent) × String × Nat)
  | 0, _, _ => none
  | fuel + 1, directory, c =>
    if isPfx "/proc".data directory.data ||
        isPfx "/sys/block".data directory.data then
      some ([], "", c)
    else
      match fs.lookup directory with
      | none => some ([], "", c)
      | some d =>
        if d.isLink then some ([], "", c)
        else
          let ev0 := (c, SEvent.progress directory)
          let fl := fileLoop sched term directory d.files c
          if fl.2.2 then some (ev0 :: fl.1, "", fl.2.1)
          else
            match dirLoopGo sched term (searchRec fs sched term fuel)
                directory d.dirs fl.2.1 with
            | none => none
            | some r => some (ev0 :: fl.1 ++ r.1, r.2.1, r.2.2)

/-- Signals of `SearchWorker::run` as the consumer sees them. -/
inductive RunEv where
  | notif (t : Nat) (e : SEvent)
  | errorOccurred (msg : String)
  | doneSig
deriving DecidableEq, Repr

/-- Model of `SearchWorker::run`: the recursive search from the root (counter 0,
search term lowercased once), the error report if the returned message
is non-empty, then the final `progressChanged("")` and the single
`done()`. -/
def runSearch (fs : SFS) (sched : Nat → Bool) (directory term : String)
    (fuel : Nat) : Option (List RunEv × Nat) :=
  match searchRec fs sched (term.data.map Char.toLower) fuel directory 0 with
  | none => none
  | some r =>
    let errEvs := if r.2.1 ≠ "" then [RunEv.errorOccurred r.2.1] else []
    some (r.1.map (fun te => RunEv.notif te.1 te.2) ++ errEvs ++
      [RunEv.notif r.2.2 (SEvent.progress ""), RunEv.doneSig], r.2.2)

/-- A concrete filesystem with a symlink cycle: `/r` holds one file and
the directory symlink `link`; the path `/r/link` exists, is a symlink,
and its listing mirrors `/r`'s (it points at its own ancestor). -/
def cycFS : SFS :=
  { lookup := fun p =>
      if p = "/r" then
        some { isLink := false, files := ["readme.txt"], dirs := ["link"] }
      else if p = "/r/link" then
        some { isLink := true, files := ["readme.txt"], dirs := ["link"] }
      else none,
    clean := fun _ => True,
    cleanChild := fun _ _ _ _ _ _ => trivial,
    maxPathLen := 7,
    bounded := by
      intro p d _ h
      by_cases h1 : p = "/r"
      · subst h1; decide
      · by_cases h2 : p = "/r/link"
        · subst h2; decide
        · simp [h1, h2] at h }

/-! ## Directory worker (`FileModelWorker`, filemodelworker.cpp) -/

/-- Model of `FileModelWorker::Mode`. -/
inductive Mode where
  | FullMode
  | DiffMode
  | NoneMode
deriving DecidableEq, Repr

/-- Signals of `FileModelWorker`. -/
inductive WEvent where
  | errorMsg (msg : String)
  | entryRemoved (i : Nat) (e : StatFileInfo)
  | entryAdded (i : Nat) (e : StatFileInfo)
  | doneSig (mode : Mode) (entries : List StatFileInfo)
deriving DecidableEq, Repr

/-- Model of `FileModelWorker::run` for an uncancelled task: `verifyOrAbort`
(empty name, then `QDir::exists`, then `QDir::isReadable`, each aborting
with its error signal), then the full or diff read over the
policy-filtered, sorted and stat-ed `entryList` result `listing`. -/
def runWorker (mode : Mode) (oldEntries : List StatFileInfo) (dir : String)
    (dirExists readable : Bool) (listing : List StatFileInfo) : List WEvent :=
  if dir = "" then
    [WEvent.errorMsg "Internal worker error: empty directory name"]
  else if !dirExists then
    [WEvent.errorMsg "Folder does not exist"]
  else if !readable then
    [WEvent.errorMsg "No permission to read the folder"]
  else
    match mode with
    | Mode.FullMode => [WEvent.doneSig Mode.FullMode listing]
    | Mode.DiffMode =>
      (doReadDiff oldEntries listing).1.map (fun ed =>
        match ed with
        | Edit.remove i e => WEvent.entryRemoved i e
        | Edit.insert i e => WEvent.entryAdded i e) ++
      [WEvent.doneSig Mode.DiffMode (doReadDiff oldEntries listing).2]
    | Mode.NoneMode => []

/-- A concrete plain-file entry used by the witness checks: a regular
file with the given name and size in a fictitious directory `/tmp/t`. -/
def sampleEntry (n : String) (sz : Nat) : StatFileInfo :=
  { fileName := n, absoluteFilePath := "/tmp/t/" ++ n, size := sz,
    permissions := 420, lastModified := 1700000000, isSymLink := false,
    isDirAtEnd := false, isSelected := false, isMatched := true,
    isDoomed := false }

/-- Old listing of the spec's concrete scenario: `a.txt` (10 bytes) and
`b.txt` (20 bytes). -/
def oldListing : List StatFileInfo :=
  [sampleEntry "a.txt" 10, sampleEntry "b.txt" 20]

/-- New listing of the spec's concrete scenario: `a.txt` deleted,
`c.txt` (15 bytes) added. -/
def newListing : List StatFileInfo :=
  [sampleEntry "b.txt" 20, sampleEntry "c.txt" 15]

/-- The spec's filter/select scenario: three matched entries, `cherry`
selected, published counts consistent, no filter set yet. -/
def cherryState : ModelState :=
  { files := [ sampleEntry "apple" 1,
               sampleEntry "banana" 2,
               { sampleEntry "cherry" 3 with isSelected := true } ],
    selectedFileCount := 1, matchedFileCount := 3, filterString := "" }

/-- The same scenario with filter string `"a*"` already stored (as
`setFilterString` leaves it just before the filter pass runs). -/
def cherryStateF : ModelState :=
  { cherryState with filterString := "a*" }

/-- A one-entry model with the entry selected: the starting point of the
doomed-then-reselected counterexample. -/
def doomState : ModelState :=
  { files := [ { sampleEntry "x" 1 with isSelected := true } ],
    selectedFileCount := 1, matchedFileCount := 1, filterString := "" }

/-! ### Basic facts about the identity comparison -/

theorem identEq_iff (f g : StatFileInfo) :
    identEq f g = true ↔
      (f.fileName = g.fileName ∧ f.size = g.size ∧ f.permissions = g.permissions ∧
       f.lastModified = g.lastModified ∧ f.isSymLink = g.isSymLink ∧
       f.isDirAtEnd = g.isDirAtEnd) := by
  simp [identEq, Bool.and_eq_true, and_assoc]

theorem identEq_refl (f : StatFileInfo) : identEq f f = true := by
  simp [identEq_iff]

theorem identEq_symm {f g : StatFileInfo} (h : identEq f g = true) :
    identEq g f = true := by
  simp only [identEq_iff] at h ⊢
  obtain ⟨h1, h2, h3, h4, h5, h6⟩ := h
  exact ⟨h1.symm, h2.symm, h3.symm, h4.symm, h5.symm, h6.symm⟩

theorem identEq_trans {f g h : StatFileInfo}
    (h1 : identEq f g = true) (h2 : identEq g h = true) :
    identEq f h = true := by
  simp only [identEq_iff] at h1 h2 ⊢
  obtain ⟨a1, a2, a3, a4, a5, a6⟩ := h1
  obtain ⟨b1, b2, b3, b4, b5, b6⟩ := h2
  exact ⟨a1.trans b1, a2.trans b2, a3.trans b3, a4.trans b4, a5.trans b5, a6.trans b6⟩

theorem filesContains_iff (files : List StatFileInfo) (e : StatFileInfo) :
    filesContains files e = true ↔ ∃ x ∈ files, identEq x e = true := by
  simp [filesContains, List.any_eq_true]

theorem identEq_name {f g : StatFileInfo} (h : identEq f g = true) :
    f.fileName = g.fileName := ((identEq_iff f g).mp h).1

/-! ### Replay lemmas: the emitted edits, applied in emission order,
reproduce the evolution of the worker's working list. -/

theorem removePass_replay (old newF : List StatFileInfo) :
    ∀ i fin, applyEdits (removePass old newF i fin).1 fin =
      (removePass old newF i fin).2 := by
  intro i
  induction i with
  | zero => intro fin; rfl
  | succ i ih =>
    intro fin
    simp only [removePass]
    by_cases h : filesContains newF (old.getD i default) = true
    · simp only [h, Bool.not_true, Bool.false_eq_true, if_false]
      exact ih fin
    · simp only [Bool.not_eq_true] at h
      simp only [h, Bool.not_false, if_true]
      simpa [applyEdits, applyEdit] using ih (fin.eraseIdx i)

theorem insertPass_replay (cl : List StatFileInfo) :
    ∀ rest i fin, applyEdits (insertPass cl i rest fin).1 fin =
      (insertPass cl i rest fin).2 := by
  intro rest
  induction rest with
  | nil => intro i fin; rfl
  | cons data rest ih =>
    intro i fin
    simp only [insertPass]
    by_cases h : filesContains cl data = true
    · simp only [h, Bool.not_true, Bool.false_eq_true, if_false]
      exact ih (i + 1) fin
    · simp only [Bool.not_eq_true] at h
      simp only [h, Bool.not_false, if_true]
      simpa [applyEdits, applyEdit] using ih (i + 1) (fin.insertIdx i data)

/-! ### The removal pass computes a filter -/

theorem eraseIdx_append_length (l1 : List StatFileInfo) (x : StatFileInfo)
    (l2 : List StatFileInfo) : (l1 ++ x :: l2).eraseIdx l1.length = l1 ++ l2 := by
  induction l1 with
  | nil => rfl
  | cons a l1 ih => simpa [List.eraseIdx] using ih

theorem removePass_final (old newF : List StatFileInfo) :
    ∀ i tail, i ≤ old.length →
      (removePass old newF i (old.take i ++ tail)).2 =
        (old.take i).filter (fun e => filesContains newF e) ++ tail := by
  intro i
  induction i with
  | zero => intro tail _; simp [removePass]
  | succ i ih =>
    intro tail hle
    have hi : i < old.length := Nat.lt_of_succ_le hle
    have hget : old.getD i default = old[i] := by
      simp [List.getD_eq_getElem?_getD, List.getElem?_eq_getElem hi]
    have htake : old.take (i + 1) = old.take i ++ [old[i]] :=
      (List.take_concat_get' old i hi).symm
    have hlen : (old.take i).length = i := List.length_take_of_le (Nat.le_of_lt hi)
    simp only [removePass, hget]
    by_cases h : filesContains newF old[i] = true
    · simp only [h, Bool.not_true, Bool.false_eq_true, if_false]
      have := ih (old[i] :: tail) (Nat.le_of_lt hi)
      rw [htake, List.append_assoc, List.singleton_append, this,
        List.filter_append, List.filter_singleton, List.append_assoc]
      simp [h]
    · simp only [Bool.not_eq_true] at h
      simp only [h, Bool.not_false, if_true]
      rw [htake, List.append_assoc, List.singleton_append]
      have herase : (old.take i ++ old[i] :: tail).eraseIdx i =
          old.take i ++ tail := by
        have := eraseIdx_append_length (old.take i) old[i] tail
        rwa [hlen] at this
      rw [herase, ih tail (Nat.le_of_lt hi), List.filter_append,
        List.filter_singleton]
      simp [h]

theorem removePass_final_full (old newF : List StatFileInfo) :
    (removePass old newF old.length old).2 =
      old.filter (fun e => filesContains newF e) := by
  have := removePass_final old newF old.length [] (Nat.le_refl _)
  simpa using this

/-- If the removal pass emitted nothing, the working list is untouched. -/
theorem removePass_edits_nil_final (old newF : List StatFileInfo) :
    ∀ i fin, (removePass old newF i fin).1 = [] →
      (removePass old newF i fin).2 = fin := by
  intro i
  induction i with
  | zero => intro fin _; rfl
  | succ i ih =>
    intro fin h
    simp only [removePass] at h ⊢
    by_cases hc : filesContains newF (old.getD i default) = true
    · simp only [hc, Bool.not_true, Bool.false_eq_true, if_false] at h ⊢
      exact ih fin h
    · simp only [Bool.not_eq_true] at hc
      simp only [hc, Bool.not_false, if_true] at h
      exact absurd h (by simp)

/-- If every old entry (by index) has an identity-equal entry in the new
list, the removal pass emits nothing and leaves the working list alone. -/
theorem removePass_all_kept (old newF : List StatFileInfo)
    (hall : ∀ j, j < old.length → filesContains newF (old.getD j default) = true) :
    ∀ i fin, i ≤ old.length →
      removePass old newF i fin = ([], fin) := by
  intro i
  induction i with
  | zero => intro fin _; rfl
  | succ i ih =>
    intro fin hle
    have hc := hall i (Nat.lt_of_succ_le hle)
    simp only [removePass, hc, Bool.not_true, Bool.false_eq_true, if_false]
    exact ih fin (Nat.le_of_succ_le hle)

/-- If every remaining new entry has an identity-equal entry in the check
list, the insertion pass emits nothing and leaves the working list alone. -/
theorem insertPass_all_present (cl : List StatFileInfo)
    (rest : List StatFileInfo)
    (hall : ∀ e ∈ rest, filesContains cl e = true) :
    ∀ i fin, insertPass cl i rest fin = ([], fin) := by
  induction rest with
  | nil => intro i fin; rfl
  | cons data rest ih =>
    intro i fin
    have hc := hall data (List.mem_cons_self _ _)
    simp only [insertPass, hc, Bool.not_true, Bool.false_eq_true, if_false]
    exact ih (fun e he => hall e (List.mem_cons_of_mem _ he)) (i + 1) fin

/-! ### Membership analysis of the insertion pass -/

theorem mem_insertIdx_of_mem {x a : StatFileInfo} {l : List StatFileInfo}
    {n : Nat} (h : x ∈ l) : x ∈ l.insertIdx n a := by
  rcases le_or_lt n l.length with hle | hlt
  · exact (List.mem_insertIdx hle).mpr (Or.inr h)
  · rwa [List.insertIdx_of_length_lt l a n hlt]

/-- Counting argument: if the entries of `pre` have pairwise distinct
names and each has an identity-equal entry in `fin`, then `fin` is at
least as long as `pre`.  This is what keeps the insertion index of
`doReadDiff` within bounds of the working list. -/
theorem length_le_of_name_inj (pre fin : List StatFileInfo)
    (hnd : (pre.map (fun e => e.fileName)).Nodup)
    (hmem : ∀ e ∈ pre, ∃ w ∈ fin, w.fileName = e.fileName) :
    pre.length ≤ fin.length := by
  classical
  set P := pre.map (fun e => e.fileName) with hP
  set F := fin.map (fun e => e.fileName) with hF
  have hsub : P.toFinset ⊆ F.toFinset := by
    intro n hn
    rw [List.mem_toFinset] at hn ⊢
    rw [hP, List.mem_map] at hn
    obtain ⟨e, he, rfl⟩ := hn
    obtain ⟨w, hw, hwe⟩ := hmem e he
    rw [hF, List.mem_map]
    exact ⟨w, hw, hwe⟩
  calc pre.length = P.length := (List.length_map _ _).symm
    _ = P.toFinset.card := (List.toFinset_card_of_nodup hnd).symm
    _ ≤ F.toFinset.card := Finset.card_le_card hsub
    _ ≤ F.length := List.toFinset_card_le F
    _ = fin.length := List.length_map _ _

/-- Main invariant of the insertion pass.  Starting at loop index
`pre.length` (the entries of `new` already processed), with every
processed entry identity-present in the working list `fin` and the check
list contained in `fin`:
the working list only grows (A), every remaining new entry is
identity-present in the final list (B), and every final entry comes from
the working list or from the remaining new entries (C). -/
theorem insertPass_mem (cl : List StatFileInfo) :
    ∀ (rest pre fin : List StatFileInfo),
      (((pre ++ rest).map (fun e => e.fileName)).Nodup) →
      (∀ e ∈ pre, filesContains fin e = true) →
      (∀ e ∈ cl, e ∈ fin) →
      (∀ x ∈ fin, x ∈ (insertPass cl pre.length rest fin).2) ∧
      (∀ e ∈ rest, filesContains (insertPass cl pre.length rest fin).2 e = true) ∧
      (∀ x ∈ (insertPass cl pre.length rest fin).2, x ∈ fin ∨ x ∈ rest) := by
  intro rest
  induction rest with
  | nil =>
    intro pre fin _ _ _
    refine ⟨fun x hx => hx, fun e he => absurd he (List.not_mem_nil e), ?_⟩
    exact fun x hx => Or.inl hx
  | cons data rest ih =>
    intro pre fin hnd hpre hcl
    have hnd' : (((pre ++ [data]) ++ rest).map (fun e => e.fileName)).Nodup := by
      rwa [List.append_assoc, List.singleton_append]
    have hlenpre : (pre ++ [data]).length = pre.length + 1 := by
      simp
    by_cases h : filesContains cl data = true
    · -- skip branch: data already identity-present in the check list
      have hstep : insertPass cl pre.length (data :: rest) fin =
          insertPass cl (pre.length + 1) rest fin := by
        simp only [insertPass, h, Bool.not_true, Bool.false_eq_true, if_false]
      obtain ⟨w, hwcl, hwid⟩ := (filesContains_iff cl data).mp h
      have hwfin : w ∈ fin := hcl w hwcl
      have hpre' : ∀ e ∈ pre ++ [data], filesContains fin e = true := by
        intro e he
        rcases List.mem_append.mp he with he | he
        · exact hpre e he
        · rw [List.mem_singleton] at he
          subst he
          exact (filesContains_iff fin e).mpr ⟨w, hwfin, hwid⟩
      have := ih (pre ++ [data]) fin hnd' hpre' hcl
      rw [hlenpre] at this
      obtain ⟨hA, hB, hC⟩ := this
      rw [hstep]
      refine ⟨hA, ?_, ?_⟩
      · intro e he
        rcases List.mem_cons.mp he with rfl | he
        · exact (filesContains_iff _ e).mpr ⟨w, hA w hwfin, hwid⟩
        · exact hB e he
      · intro x hx
        rcases hC x hx with hx | hx
        · exact Or.inl hx
        · exact Or.inr (List.mem_cons_of_mem _ hx)
    · -- insert branch: data is inserted at index pre.length
      have hstep : insertPass cl pre.length (data :: rest) fin =
          let res := insertPass cl (pre.length + 1) rest
            (fin.insertIdx pre.length data)
          (Edit.insert pre.length data :: res.1, res.2) := by
        simp only [Bool.not_eq_true] at h
        simp only [insertPass, h, Bool.not_false, if_true]
      have hle : pre.length ≤ fin.length := by
        refine length_le_of_name_inj pre fin ?_ ?_
        · have := hnd
          rw [List.map_append] at this
          exact this.of_append_left
        · intro e he
          obtain ⟨w, hwfin, hwid⟩ := (filesContains_iff fin e).mp (hpre e he)
          exact ⟨w, hwfin, identEq_name hwid⟩
      set fin' := fin.insertIdx pre.length data with hfin'
      have hmemfin' : ∀ x, x ∈ fin' ↔ x = data ∨ x ∈ fin := by
        intro x
        exact List.mem_insertIdx hle
      have hpre' : ∀ e ∈ pre ++ [data], filesContains fin' e = true := by
        intro e he
        rcases List.mem_append.mp he with he | he
        · obtain ⟨w, hwfin, hwid⟩ := (filesContains_iff fin e).mp (hpre e he)
          exact (filesContains_iff fin' e).mpr
            ⟨w, (hmemfin' w).mpr (Or.inr hwfin), hwid⟩
        · rw [List.mem_singleton] at he
          subst he
          exact (filesContains_iff fin' e).mpr
            ⟨e, (hmemfin' e).mpr (Or.inl rfl), identEq_refl e⟩
      have hcl' : ∀ e ∈ cl, e ∈ fin' :=
        fun e he => (hmemfin' e).mpr (Or.inr (hcl e he))
      have := ih (pre ++ [data]) fin' hnd' hpre' hcl'
      rw [hlenpre] at this
      obtain ⟨hA, hB, hC⟩ := this
      rw [hstep]
      refine ⟨?_, ?_, ?_⟩
      · intro x hx
        exact hA x ((hmemfin' x).mpr (Or.inr hx))
      · intro e he
        rcases List.mem_cons.mp he with rfl | he
        · exact (filesContains_iff _ e).mpr
            ⟨e, hA e ((hmemfin' e).mpr (Or.inl rfl)), identEq_refl e⟩
        · exact hB e he
      · intro x hx
        rcases hC x hx with hx | hx
        · rcases (hmemfin' x).mp hx with rfl | hx
          · exact Or.inr (List.mem_cons_self _ _)
          · exact Or.inl hx
        · exact Or.inr (List.mem_cons_of_mem _ hx)

/-- Helper shared by several claims: a Bool equality follows from the
equivalence of the two truth conditions. -/
theorem bool_eq_of_iff {a b : Bool} (h : a = true ↔ b = true) : a = b := by
  revert h
  cases a <;> cases b <;> decide

/-- Reading `getD` at an in-bounds index gives a member of the list. -/
theorem getD_mem_of_lt {l : List StatFileInfo} {n : Nat} (h : n < l.length) :
    l.getD n default ∈ l := by
  rw [List.getD_eq_getElem?_getD, List.getElem?_eq_getElem h]
  exact List.getElem_mem h

/-- Shared helper: when `old` and `newF` are pairwise identity-equal
(position by position), the diff-mode read emits no edits and its final
list is `old` unchanged. -/
theorem diff_no_edits_of_pairwise (old newF : List StatFileInfo)
    (hlen : old.length = newF.length)
    (hpair : ∀ i, i < old.length →
      identEq (old.getD i default) (newF.getD i default) = true) :
    (doReadDiff old newF).1 = [] ∧ (doReadDiff old newF).2 = old := by
  have hall : ∀ j, j < old.length →
      filesContains newF (old.getD j default) = true := by
    intro j hj
    have hj' : j < newF.length := hlen ▸ hj
    refine (filesContains_iff _ _).mpr ⟨newF.getD j default, ?_, ?_⟩
    · exact getD_mem_of_lt hj'
    · exact identEq_symm (hpair j hj)
  have hrem : removePass old newF old.length old = ([], old) :=
    removePass_all_kept old newF hall old.length old (Nat.le_refl _)
  have hinsall : ∀ e ∈ newF, filesContains old e = true := by
    intro e he
    obtain ⟨i, hi, hgete⟩ := List.getElem_of_mem he
    have hi' : i < old.length := hlen ▸ hi
    have hgetd : newF.getD i default = e := by
      rw [List.getD_eq_getElem?_getD, List.getElem?_eq_getElem hi]
      exact hgete
    refine (filesContains_iff _ _).mpr ⟨old.getD i default, ?_, ?_⟩
    · exact getD_mem_of_lt hi'
    · rw [← hgetd]
      exact hpair i hi'
  have hins : insertPass old 0 newF old = ([], old) :=
    insertPass_all_present old newF hinsall 0 old
  simp only [doReadDiff, hrem, List.isEmpty_nil, Bool.not_true, Bool.false_eq_true,
    if_false, hins]
  exact ⟨rfl, trivial⟩

/-- C1: Applying the edit sequence of the diff-mode read to `old`
(in emission order, removes at their indices, inserts at their indices)
yields exactly the worker's final list `m_finalEntries`, and that list's
membership under identity equality coincides with the membership of the
freshly read listing `newF`.  The hypothesis is the Listing invariant of
the spec: no two entries of a listing share a name. -/
theorem doReadDiff_membership_correct (old newF : List StatFileInfo)
    (hnew : (newF.map (fun e => e.fileName)).Nodup) :
    applyEdits (doReadDiff old newF).1 old = (doReadDiff old newF).2 ∧
    ∀ e, filesContains (doReadDiff old newF).2 e = filesContains newF e := by
  have hcl : (if !(removePass old newF old.length old).1.isEmpty then
      (removePass old newF old.length old).2 else old) =
      (removePass old newF old.length old).2 := by
    by_cases h : (removePass old newF old.length old).1.isEmpty = true
    · rw [h]
      simp only [Bool.not_true, Bool.false_eq_true, if_false]
      exact (removePass_edits_nil_final old newF old.length old
        (List.isEmpty_iff.mp h)).symm
    · simp only [Bool.not_eq_true] at h
      rw [h]
      simp
  have hdiff : doReadDiff old newF =
      ((removePass old newF old.length old).1 ++
        (insertPass (removePass old newF old.length old).2 0 newF
          (removePass old newF old.length old).2).1,
       (insertPass (removePass old newF old.length old).2 0 newF
          (removePass old newF old.length old).2).2) := by
    simp only [doReadDiff, hcl]
  set rem := removePass old newF old.length old with hremdef
  set ins := insertPass rem.2 0 newF rem.2 with hinsdef
  have hfilter : rem.2 = old.filter (fun e => filesContains newF e) :=
    removePass_final_full old newF
  have hmem := insertPass_mem rem.2 newF [] rem.2
    (by simpa using hnew)
    (fun e he => absurd he (List.not_mem_nil e))
    (fun e he => he)
  simp only [List.nil_append, List.length_nil] at hmem
  obtain ⟨hA, hB, hC⟩ := hmem
  constructor
  · rw [hdiff]
    simp only [applyEdits, List.foldl_append]
    have h1 : applyEdits rem.1 old = rem.2 :=
      removePass_replay old newF old.length old
    have h2 : applyEdits ins.1 rem.2 = ins.2 :=
      insertPass_replay rem.2 newF 0 rem.2
    simp only [applyEdits] at h1 h2
    rw [h1, h2]
  · intro e
    rw [hdiff]
    refine bool_eq_of_iff ?_
    constructor
    · intro hx
      obtain ⟨x, hxmem, hxid⟩ := (filesContains_iff _ _).mp hx
      rcases hC x hxmem with hx2 | hx2
      · rw [hfilter] at hx2
        obtain ⟨-, hxin⟩ := List.mem_filter.mp hx2
        obtain ⟨w, hwmem, hwid⟩ := (filesContains_iff _ _).mp hxin
        exact (filesContains_iff _ _).mpr ⟨w, hwmem, identEq_trans hwid hxid⟩
      · exact (filesContains_iff _ _).mpr ⟨x, hx2, hxid⟩
    · intro hx
      obtain ⟨w, hwmem, hwid⟩ := (filesContains_iff _ _).mp hx
      obtain ⟨x, hxmem, hxid⟩ := (filesContains_iff _ _).mp (hB w hwmem)
      exact (filesContains_iff _ _).mpr ⟨x, hxmem, identEq_trans hxid hwid⟩

/-- Witness for C1 at the spec's concrete scenario
(`[a.txt, b.txt]` refreshed against `[b.txt, c.txt]`). -/
theorem doReadDiff_membership_correct_witness :
    ((newListing.map (fun e => e.fileName)).Nodup) ∧
    (applyEdits (doReadDiff oldListing newListing).1 oldListing =
      (doReadDiff oldListing newListing).2 ∧
    ∀ e, filesContains (doReadDiff oldListing newListing).2 e =
      filesContains newListing e) :=
  ⟨by decide, doReadDiff_membership_correct oldListing newListing (by decide)⟩

/-- C2: Identity equality used by the diff is exactly equality of
the six attributes name/size/permissions/last-modified/symlink-flag/
resolved-directory-flag, and two listings whose entries are pairwise
identity-equal (so differing at most in the transient
selected/matched/doomed flags) produce no diff edits at all. -/
theorem identity_equality_and_transient_stability :
    (∀ f g : StatFileInfo, identEq f g = true ↔
      (f.fileName = g.fileName ∧ f.size = g.size ∧ f.permissions = g.permissions ∧
       f.lastModified = g.lastModified ∧ f.isSymLink = g.isSymLink ∧
       f.isDirAtEnd = g.isDirAtEnd)) ∧
    ∀ old newF : List StatFileInfo, old.length = newF.length →
      (∀ i, i < old.length →
        identEq (old.getD i default) (newF.getD i default) = true) →
      (doReadDiff old newF).1 = [] :=
  ⟨identEq_iff, fun old newF hlen hpair =>
    (diff_no_edits_of_pairwise old newF hlen hpair).1⟩

/-- Witness for C2: two copies of a listing differing only in the
selected/matched/doomed flags produce no edits. -/
theorem identity_equality_and_transient_stability_witness :
    (oldListing.length =
      (oldListing.map (fun e =>
        { e with isSelected := true, isDoomed := true,
                 isMatched := false })).length) ∧
    (doReadDiff oldListing
      (oldListing.map (fun e =>
        { e with isSelected := true, isDoomed := true,
                 isMatched := false }))).1 = [] := by
  refine ⟨by decide, identity_equality_and_transient_stability.2 _ _ (by decide) ?_⟩
  decide

/-- C4: The diff of a listing against an identical fresh read emits
zero removes and zero inserts. -/
theorem doReadDiff_self_no_edits (L : List StatFileInfo) :
    (doReadDiff L L).1 = [] :=
  (diff_no_edits_of_pairwise L L rfl
    (fun i _ => identEq_refl (L.getD i default))).1

/-! ### Directory-model lemmas -/

/-- Every row left behind by the `markSelectedAsDoomed` loop is
unselected: selected rows are doomed and deselected, unselected rows are
untouched. -/
theorem doomSelectedLoop_unselected :
    ∀ (l : List StatFileInfo) (i : Int),
      ∀ e ∈ (doomSelectedLoop l i).1, e.isSelected = false := by
  intro l
  induction l with
  | nil => intro i e he; exact absurd he (List.not_mem_nil e)
  | cons info rest ih =>
    intro i e he
    simp only [doomSelectedLoop] at he
    by_cases h : info.isSelected = true
    · simp only [h, if_true] at he
      rcases List.mem_cons.mp he with rfl | he
      · rfl
      · exact ih (i + 1) e he
    · simp only [h, if_false] at he
      rcases List.mem_cons.mp he with rfl | he
      · exact Bool.not_eq_true _ ▸ (by simpa using h)
      · exact ih (i + 1) e he

/-- The `markAsDoomed` loop preserves "no row is both doomed and
selected": touched rows end up deselected, untouched rows are of the
input. -/
theorem doomPathsLoop_invariant (paths : List String) :
    ∀ (l : List StatFileInfo) (i : Int),
      (∀ e ∈ l, ¬(e.isDoomed = true ∧ e.isSelected = true)) →
      ∀ e ∈ (doomPathsLoop paths l i).1,
        ¬(e.isDoomed = true ∧ e.isSelected = true) := by
  intro l
  induction l with
  | nil => intro i _ e he; exact absurd he (List.not_mem_nil e)
  | cons info rest ih =>
    intro i hall e he
    simp only [doomPathsLoop] at he
    by_cases h : paths.contains info.absoluteFilePath = true
    · simp only [h, if_true] at he
      rcases List.mem_cons.mp he with rfl | he
      · rintro ⟨-, hsel⟩
        exact absurd hsel (by simp)
      · exact ih (i + 1) (fun x hx => hall x (List.mem_cons_of_mem _ hx)) e he
    · simp only [h, if_false] at he
      rcases List.mem_cons.mp he with rfl | he
      · exact hall e (List.mem_cons_self _ _)
      · exact ih (i + 1) (fun x hx => hall x (List.mem_cons_of_mem _ hx)) e he

/-- Any row left unmatched by the filter loop is also unselected (rows
that stop matching are forcibly deselected; rows that were already
unmatched and selected are deselected by the second disjunct of the
update condition). -/
theorem filterLoop_unmatched_unselected (pat : List GTok) :
    ∀ (l : List StatFileInfo) (row : Int),
      ∀ e ∈ (filterLoop pat l row).1,
        e.isMatched = false → e.isSelected = false := by
  intro l
  induction l with
  | nil => intro row e he; exact absurd he (List.not_mem_nil e)
  | cons info rest ih =>
    intro row e he hm
    simp only [filterLoop] at he
    by_cases hc : info.isMatched ≠ matchAnywhere pat info.fileName.data ∨
        (matchAnywhere pat info.fileName.data = false ∧ info.isSelected = true)
    · rw [if_pos hc] at he
      rcases List.mem_cons.mp he with rfl | he
      · by_cases hM : matchAnywhere pat info.fileName.data = true
        · rw [if_pos hM] at hm
          simp [hM] at hm
        · rw [if_neg hM]
      · exact ih (row + 1) e he hm
    · rw [if_neg hc] at he
      push_neg at hc
      rcases List.mem_cons.mp he with rfl | he
      · have hMf := hc.1.symm.trans hm
        have := hc.2 hMf
        simpa using this
      · exact ih (row + 1) e he hm

/-- With a pattern that matches everything, the filter loop marks every
row matched, counts all of them, and leaves every selection flag
unchanged. -/
theorem filterLoop_all_match (pat : List GTok)
    (hall : ∀ xs, matchAnywhere pat xs = true) :
    ∀ (l : List StatFileInfo) (row : Int),
      ((filterLoop pat l row).1.map (fun e => e.isSelected) =
        l.map (fun e => e.isSelected)) ∧
      (∀ e ∈ (filterLoop pat l row).1, e.isMatched = true) ∧
      (filterLoop pat l row).2.2.1 = l.length := by
  intro l
  induction l with
  | nil =>
    intro row
    exact ⟨rfl, fun e he => absurd he (List.not_mem_nil e), rfl⟩
  | cons info rest ih =>
    intro row
    obtain ⟨ih1, ih2, ih3⟩ := ih (row + 1)
    simp only [filterLoop, hall info.fileName.data, if_true]
    by_cases h : info.isMatched ≠ true ∨ (true = false ∧ info.isSelected = true)
    · simp only [if_pos h]
      refine ⟨?_, ?_, ?_⟩
      · simp only [List.map_cons, ih1]
      · intro e he
        rcases List.mem_cons.mp he with rfl | he
        · rfl
        · exact ih2 e he
      · simp only [List.length_cons]
        omega
    · simp only [if_neg h]
      push_neg at h
      have hm : info.isMatched = true := h.1
      refine ⟨?_, ?_, ?_⟩
      · simp only [List.map_cons, ih1]
      · intro e he
        rcases List.mem_cons.mp he with rfl | he
        · exact hm
        · exact ih2 e he
      · simp only [List.length_cons]
        omega

/-- The all-matching fallback pattern `".*"` (token `anyStar`) matches
every string. -/
theorem matchAnywhere_anyStar (xs : List Char) :
    matchAnywhere [GTok.anyStar] xs = true := by
  cases xs with
  | nil => rfl
  | cons x xs =>
    simp only [matchAnywhere, matchHere, starRun]
    simp [matchHere]

/-- C3 counterexample:  A doomed entry is reached by
`markSelectedAsDoomed` (doomed and deselected), and a subsequent
`toggleSelectedFile` on it sets `selected = true` while `doomed` stays
`true`: the doomed/selected exclusion is violated in a reachable state,
because `toggleSelectedFile` never checks the doomed flag. -/
theorem doomed_reselect_counterexample :
    (((markSelectedAsDoomed doomState).1.files.getD 0 default).isDoomed = true ∧
     ((markSelectedAsDoomed doomState).1.files.getD 0 default).isSelected = false) ∧
    ((toggleSelectedFile (markSelectedAsDoomed doomState).1 0).1.files.getD 0
        default).isDoomed = true ∧
    ((toggleSelectedFile (markSelectedAsDoomed doomState).1 0).1.files.getD 0
        default).isSelected = true := by
  decide

/-- C3 amended:  Dooming clears selection in the same step: after
`markSelectedAsDoomed` no entry is selected at all, and `markAsDoomed`
preserves the no-doomed-and-selected property.  (The original claim's
further assertion — that no operation can select a doomed entry — fails:
see the counterexample.) -/
theorem doomed_never_selected_by_marking :
    (∀ s : ModelState, ∀ e ∈ (markSelectedAsDoomed s).1.files,
      e.isSelected = false) ∧
    (∀ (s : ModelState) (paths : List String),
      (∀ e ∈ s.files, ¬(e.isDoomed = true ∧ e.isSelected = true)) →
      ∀ e ∈ (markAsDoomed s paths).1.files,
        ¬(e.isDoomed = true ∧ e.isSelected = true)) :=
  ⟨fun s e he => doomSelectedLoop_unselected s.files 0 e he,
   fun s paths hall e he => doomPathsLoop_invariant paths s.files 0 hall e he⟩

/-- Witness for the amended C3 at a concrete model state. -/
theorem doomed_never_selected_by_marking_witness :
    (∀ e ∈ doomState.files, ¬(e.isDoomed = true ∧ e.isSelected = true)) ∧
    (∀ e ∈ (markAsDoomed doomState ["/tmp/t/x"]).1.files,
      ¬(e.isDoomed = true ∧ e.isSelected = true)) :=
  ⟨by decide, doomed_never_selected_by_marking.2 doomState ["/tmp/t/x"] (by decide)⟩

/-- C8 counterexample:  Setting filter `"a*"` on the
apple/banana/cherry model changes the matched-entry count (3 to 2), yet
the filter pass emits no `filteredFileCountChanged` notification: the
matched count is not republished when it changes (only
`recountSelectedFiles`, on the full-read path, emits that signal). -/
theorem filter_matched_count_not_republished :
    (setFilterString cherryState "a*").1.matchedFileCount ≠
      cherryState.matchedFileCount ∧
    MEvent.filteredFileCountChanged ∉ (setFilterString cherryState "a*").2 := by
  decide

/-- C8 amended:  Setting the filter string compiles the glob-like
pattern into a case-insensitive match rule and re-evaluates every entry;
in general every entry left unmatched is forcibly deselected, and in the
apple/banana/cherry scenario filter `"a*"` leaves apple and banana
matched, cherry unmatched and deselected, the published selected-count
drops from 1 to 0 (with `selectedFileCountChanged` emitted), and the
matched count is updated to 2 — but not republished (see the
counterexample). -/
theorem filter_select_interaction :
    (∀ s : ModelState, ∀ e ∈ (applyFilterString s).1.files,
      e.isMatched = false → e.isSelected = false) ∧
    ((setFilterString cherryState "a*").1.files.map
        (fun e => (e.fileName, e.isMatched, e.isSelected)) =
      [("apple", true, false), ("banana", true, false),
       ("cherry", false, false)] ∧
     cherryState.selectedFileCount = 1 ∧
     (setFilterString cherryState "a*").1.selectedFileCount = 0 ∧
     (setFilterString cherryState "a*").1.matchedFileCount = 2 ∧
     MEvent.selectedFileCountChanged ∈ (setFilterString cherryState "a*").2) := by
  constructor
  · intro s e he hm
    simp only [applyFilterString] at he
    split at he <;> split at he <;>
      exact filterLoop_unmatched_unselected _ s.files 0 e (by simpa using he) hm
  · exact ⟨by decide, by decide, by decide, by decide, by decide⟩

/-- Witness for the general part of the amended C8: the cherry entry of
the concrete scenario stops matching and is indeed deselected. -/
theorem filter_select_interaction_witness :
    ((applyFilterString cherryStateF).1.files.getD 2 default ∈
        (applyFilterString cherryStateF).1.files ∧
     ((applyFilterString cherryStateF).1.files.getD 2 default).isMatched =
        false) ∧
    ((applyFilterString cherryStateF).1.files.getD 2 default).isSelected =
        false :=
  ⟨⟨by decide, by decide⟩,
   filter_select_interaction.1 cherryStateF _ (by decide) (by decide)⟩

/-- C9:  The index-taking model operations are total and fail
silently out of range: `fileNameAt` returns the empty string,
`toggleSelectedFile` changes nothing and emits nothing, and
`selectRange` with either bound out of range changes nothing and emits
nothing. -/
theorem index_ops_fail_silently :
    (∀ (s : ModelState) (i : Int),
      (i < 0 ∨ (s.files.length : Int) ≤ i) → fileNameAt s i = "") ∧
    (∀ (s : ModelState) (i : Int),
      (i < 0 ∨ (s.files.length : Int) ≤ i) → toggleSelectedFile s i = (s, [])) ∧
    (∀ (s : ModelState) (i j : Int) (b : Bool),
      ((i < 0 ∨ (s.files.length : Int) ≤ i) ∨
       (j < 0 ∨ (s.files.length : Int) ≤ j)) →
      selectRange s i j b = (s, [])) := by
  refine ⟨?_, ?_, ?_⟩
  · intro s i hi
    rcases hi with h | h <;> simp [fileNameAt, h]
  · intro s i hi
    rcases hi with h | h <;> simp [toggleSelectedFile, h]
  · intro s i j b h
    simp only [selectRange]
    rw [if_pos (by tauto)]

/-- Witness for C9 at a one-entry model and concrete out-of-range
indices. -/
theorem index_ops_fail_silently_witness :
    fileNameAt doomState 5 = "" ∧
    toggleSelectedFile doomState (-1) = (doomState, []) ∧
    selectRange doomState 0 7 true = (doomState, []) :=
  ⟨index_ops_fail_silently.1 doomState 5 (by decide),
   index_ops_fail_silently.2.1 doomState (-1) (by decide),
   index_ops_fail_silently.2.2 doomState 0 7 true (by decide)⟩

/-- C10:  With an empty stored filter string the pass falls back to
the match-everything pattern: afterwards every entry is matched, the
matched count equals the total entry count, and no selection flag is
changed by the pass. -/
theorem empty_filter_matches_everything (s : ModelState)
    (h : s.filterString = "") :
    (∀ e ∈ (applyFilterString s).1.files, e.isMatched = true) ∧
    (applyFilterString s).1.matchedFileCount = (s.files.length : Int) ∧
    (applyFilterString s).1.files.map (fun e => e.isSelected) =
      s.files.map (fun e => e.isSelected) := by
  have hdata : s.filterString.data = [] := by rw [h]
  have htr : translateFilter s.filterString.data = [] := by rw [hdata]; rfl
  have hpat : (if translateFilter s.filterString.data = ([] : List Char) then
      [GTok.anyStar] else parseRx (translateFilter s.filterString.data)) =
      [GTok.anyStar] := by rw [htr]; simp
  obtain ⟨hsel, hmat, hcnt⟩ :=
    filterLoop_all_match [GTok.anyStar] matchAnywhere_anyStar s.files 0
  refine ⟨?_, ?_, ?_⟩
  · intro e he
    simp only [applyFilterString, hpat] at he
    split at he
    · exact hmat e (by simpa using he)
    · exact hmat e (by simpa using he)
  · simp only [applyFilterString, hpat]
    split
    · exact_mod_cast congrArg Int.ofNat hcnt
    · exact_mod_cast congrArg Int.ofNat hcnt
  · simp only [applyFilterString, hpat]
    split
    · simpa using hsel
    · simpa using hsel

/-- Witness for C10 at the concrete apple/banana/cherry model (whose
stored filter string is empty). -/
theorem empty_filter_matches_everything_witness :
    cherryState.filterString = "" ∧
    ((∀ e ∈ (applyFilterString cherryState).1.files, e.isMatched = true) ∧
     (applyFilterString cherryState).1.matchedFileCount =
       (cherryState.files.length : Int) ∧
     (applyFilterString cherryState).1.files.map (fun e => e.isSelected) =
       cherryState.files.map (fun e => e.isSelected)) :=
  ⟨rfl, empty_filter_matches_everything cherryState rfl⟩

/-! ### Search-worker lemmas -/

/-- Note `searchRecursively` itself never constructs a non-empty error
string: the directory loop only propagates its children's. -/
theorem dirLoopGo_err (sched : Nat → Bool) (term : List Char)
    (child : String → Nat → Option (List (Nat × SEvent) × String × Nat))
    (directory : String)
    (hchild : ∀ p c r, child p c = some r → r.2.1 = "") :
    ∀ names c r, dirLoopGo sched term child directory names c = some r →
      r.2.1 = "" := by
  intro names
  induction names with
  | nil =>
    intro c r h
    simp only [dirLoopGo] at h
    cases h
    rfl
  | cons name rest ih =>
    intro c r h
    simp only [dirLoopGo] at h
    by_cases hs : sched c = true
    · rw [if_pos hs] at h; cases h; rfl
    · rw [if_neg hs] at h
      split at h
      · exact absurd h (by simp)
      · rename_i rc hch
        by_cases herr : rc.2.1 ≠ ""
        · rw [if_pos herr] at h
          cases h
          exact hchild _ _ rc hch
        · rw [if_neg herr] at h
          split at h
          · exact absurd h (by simp)
          · rename_i r2 hd2
            cases h
            exact ih _ r2 hd2

/-- The error string returned by `searchRecursively` is always empty. -/
theorem searchRec_err (fs : SFS) (sched : Nat → Bool) (term : List Char) :
    ∀ fuel directory c r, searchRec fs sched term fuel directory c = some r →
      r.2.1 = "" := by
  intro fuel
  induction fuel with
  | zero => intro d c r h; exact absurd h (by simp [searchRec])
  | succ fuel ih =>
    intro directory c r h
    simp only [searchRec] at h
    by_cases hp : (isPfx "/proc".data directory.data ||
        isPfx "/sys/block".data directory.data) = true
    · rw [if_pos hp] at h; cases h; rfl
    · rw [if_neg hp] at h
      split at h
      · cases h; rfl
      · rename_i d hl
        by_cases hsym : d.isLink = true
        · rw [if_pos hsym] at h; cases h; rfl
        · rw [if_neg hsym] at h
          by_cases hfl : (fileLoop sched term directory d.files c).2.2 = true
          · rw [if_pos hfl] at h; cases h; rfl
          · rw [if_neg hfl] at h
            split at h
            · exact absurd h (by simp)
            · rename_i r2 hd2
              cases h
              exact dirLoopGo_err sched term _ directory
                (fun p c' r' hr => ih p c' r' hr) d.dirs _ r2 hd2

/-- With the flag set from check `k` on, every match the file loop emits
is stamped at or before `k`: each emission is guarded by a check that
read the flag as unset. -/
theorem fileLoop_events_le (k : Nat) (term : List Char) (directory : String) :
    ∀ names c,
      ∀ te ∈ (fileLoop (fun t => decide (k ≤ t)) term directory names c).1,
        te.1 ≤ k := by
  intro names
  induction names with
  | nil => intro c te h; exact absurd h (List.not_mem_nil te)
  | cons name rest ih =>
    intro c te h
    simp only [fileLoop] at h
    by_cases hs : decide (k ≤ c) = true
    · rw [if_pos hs] at h
      exact absurd h (List.not_mem_nil te)
    · rw [if_neg hs] at h
      have hck : c < k := by simpa using hs
      rcases List.mem_append.mp h with h | h
      · by_cases hm : hasSubstr (name.data.map Char.toLower) term = true
        · rw [if_pos hm] at h
          rw [List.mem_singleton] at h
          subst h
          exact hck
        · rw [if_neg hm] at h
          exact absurd h (List.not_mem_nil te)
      · exact ih (c + 1) te h

/-- Same bound for the directory loop, given it for the child calls
entered at a counter at or before `k`. -/
theorem dirLoopGo_events_le (k : Nat) (term : List Char)
    (child : String → Nat → Option (List (Nat × SEvent) × String × Nat))
    (directory : String)
    (hchild : ∀ p c, c ≤ k → ∀ r, child p c = some r →
      ∀ te ∈ r.1, te.1 ≤ k) :
    ∀ names c r,
      dirLoopGo (fun t => decide (k ≤ t)) term child directory names c =
        some r → ∀ te ∈ r.1, te.1 ≤ k := by
  intro names
  induction names with
  | nil =>
    intro c r h te hte
    simp only [dirLoopGo] at h
    cases h
    exact absurd hte (List.not_mem_nil te)
  | cons name rest ih =>
    intro c r h te hte
    simp only [dirLoopGo] at h
    by_cases hs : decide (k ≤ c) = true
    · rw [if_pos hs] at h
      cases h
      exact absurd hte (List.not_mem_nil te)
    · rw [if_neg hs] at h
      have hck : c < k := by simpa using hs
      split at h
      · exact absurd h (by simp)
      · rename_i rc hch
        have hcev : ∀ te ∈ rc.1, te.1 ≤ k := hchild _ _ hck _ hch
        have hmatch : ∀ te2 ∈ (if hasSubstr (name.data.map Char.toLower) term
            = true
            then [(c + 1, SEvent.matchFound (directory ++ "/" ++ name))]
            else []), te2.1 ≤ k := by
          intro te2 hte2
          by_cases hm : hasSubstr (name.data.map Char.toLower) term = true
          · rw [if_pos hm, List.mem_singleton] at hte2
            subst hte2
            exact hck
          · rw [if_neg hm] at hte2
            exact absurd hte2 (List.not_mem_nil te2)
        by_cases herr : rc.2.1 ≠ ""
        · rw [if_pos herr] at h
          cases h
          rcases List.mem_append.mp hte with hte | hte
          · exact hmatch te hte
          · exact hcev te hte
        · rw [if_neg herr] at h
          split at h
          · exact absurd h (by simp)
          · rename_i r2 hd2
            cases h
            rcases List.mem_append.mp hte with hte | hte
            · rcases List.mem_append.mp hte with hte | hte
              · exact hmatch te hte
              · exact hcev te hte
            · exact ih _ _ hd2 te hte

/-- With the flag set from check `k` on, every notification emitted by a
`searchRecursively` call entered at counter `c ≤ k` is stamped at or
before `k`: nothing is emitted once a check has observed the
cancellation. -/
theorem searchRec_events_le (fs : SFS) (k : Nat) (term : List Char) :
    ∀ fuel directory c, c ≤ k →
      ∀ r, searchRec fs (fun t => decide (k ≤ t)) term fuel directory c =
        some r → ∀ te ∈ r.1, te.1 ≤ k := by
  intro fuel
  induction fuel with
  | zero => intro d c _ r h; exact absurd h (by simp [searchRec])
  | succ fuel ih =>
    intro directory c hck r h te hte
    simp only [searchRec] at h
    by_cases hp : (isPfx "/proc".data directory.data ||
        isPfx "/sys/block".data directory.data) = true
    · rw [if_pos hp] at h; cases h; exact absurd hte (List.not_mem_nil te)
    · rw [if_neg hp] at h
      split at h
      · cases h; exact absurd hte (List.not_mem_nil te)
      · rename_i d hl
        by_cases hsym : d.isLink = true
        · rw [if_pos hsym] at h; cases h
          exact absurd hte (List.not_mem_nil te)
        · rw [if_neg hsym] at h
          have hflev := fileLoop_events_le k term directory d.files c
          by_cases hfl : (fileLoop (fun t => decide (k ≤ t)) term directory
              d.files c).2.2 = true
          · rw [if_pos hfl] at h
            cases h
            rcases List.mem_cons.mp hte with rfl | hte
            · exact hck
            · exact hflev te hte
          · rw [if_neg hfl] at h
            split at h
            · exact absurd h (by simp)
            · rename_i r2 hd2
              cases h
              rcases List.mem_cons.mp hte with rfl | hte
              · exact hck
              · rcases List.mem_append.mp hte with hte | hte
                · exact hflev te hte
                · exact dirLoopGo_events_le k term _ directory
                    (fun p c' hc' r' hr' => ih p c' hc' r' hr')
                    d.dirs _ r2 hd2 te hte

/-- The directory loop returns a result whenever every child call
does. -/
theorem dirLoopGo_isSome (sched : Nat → Bool) (term : List Char)
    (child : String → Nat → Option (List (Nat × SEvent) × String × Nat))
    (directory : String) :
    ∀ names, (∀ n ∈ names, ∀ c',
        (child (directory ++ "/" ++ n) c').isSome = true) →
      ∀ c, (dirLoopGo sched term child directory names c).isSome = true := by
  intro names
  induction names with
  | nil => intro _ c; rfl
  | cons name rest ih =>
    intro hchild c
    simp only [dirLoopGo]
    by_cases hs : sched c = true
    · rw [if_pos hs]; rfl
    · rw [if_neg hs]
      have h1 := hchild name (List.mem_cons_self _ _) (c + 1)
      split
      · rename_i hch
        rw [hch] at h1
        exact absurd h1 (by simp)
      · rename_i rc hch
        by_cases herr : rc.2.1 ≠ ""
        · rw [if_pos herr]; rfl
        · rw [if_neg herr]
          have h2 := ih (fun n hn c' =>
            hchild n (List.mem_cons_of_mem _ hn) c') rc.2.2
          split
          · rename_i hd2
            rw [hd2] at h2
            exact absurd h2 (by simp)
          · rfl

/-- Termination of the recursive search: on a clean path, fuel
exceeding the length headroom of the (finite) directory tree suffices —
every recursion step appends `"/" ++ name` to the path, symlinks and
missing directories return immediately, and clean existing paths are
length-bounded.  In particular the search terminates on trees containing
symlink cycles, since symlinked directories are never entered. -/
theorem searchRec_isSome (fs : SFS) (sched : Nat → Bool) (term : List Char) :
    ∀ fuel p c, fs.clean p → 1 ≤ fuel →
      fs.maxPathLen + 2 ≤ fuel + p.length →
      (searchRec fs sched term fuel p c).isSome = true := by
  intro fuel
  induction fuel with
  | zero => intro p c _ h1 _; exact absurd h1 (by omega)
  | succ fuel ih =>
    intro p c hclean _ hbound
    simp only [searchRec]
    by_cases hp : (isPfx "/proc".data p.data ||
        isPfx "/sys/block".data p.data) = true
    · rw [if_pos hp]; rfl
    · rw [if_neg hp]
      split
      · rfl
      · rename_i d hl
        by_cases hsym : d.isLink = true
        · rw [if_pos hsym]; rfl
        · rw [if_neg hsym]
          have hplen : p.length ≤ fs.maxPathLen := fs.bounded p d hclean hl
          by_cases hfl : (fileLoop sched term p d.files c).2.2 = true
          · rw [if_pos hfl]; rfl
          · rw [if_neg hfl]
            have hslash : ("/" : String).length = 1 := rfl
            have hds := dirLoopGo_isSome sched term
              (searchRec fs sched term fuel) p d.dirs
              (fun name hn c' => by
                refine ih (p ++ "/" ++ name) c'
                  (fs.cleanChild p d name hclean hl (by simpa using hsym))
                  (by omega) ?_
                have hlen : (p ++ "/" ++ name).length =
                    p.length + 1 + name.length := by
                  rw [String.length_append, String.length_append, hslash]
                omega)
              (fileLoop sched term p d.files c).2.1
            split
            · rename_i hd2
              rw [hd2] at hds
              exact absurd hds (by simp)
            · rfl

/-- C5:  The recursive search terminates on every directory tree
(including symlink cycles): sufficient fuel always exists; a symlinked
path returns immediately with no events and no error; `/proc` and
`/sys/block` prefixes return immediately; and (concretely, on the
cyclic-symlink filesystem) the symlinked directory entry is still
emitted as a name match by its parent before the recursion's symlink
check rejects it. -/
theorem search_symlink_safety :
    (∀ (fs : SFS) (sched : Nat → Bool) (term : List Char) (fuel : Nat)
        (p : String) (c : Nat),
      fs.clean p → 1 ≤ fuel → fs.maxPathLen + 2 ≤ fuel + p.length →
      (searchRec fs sched term fuel p c).isSome = true) ∧
    (∀ (fs : SFS) (sched : Nat → Bool) (term : List Char) (fuel : Nat)
        (p : String) (c : Nat) (d : DirInfo),
      fs.lookup p = some d → d.isLink = true →
      searchRec fs sched term (fuel + 1) p c = some ([], "", c)) ∧
    (∀ (fs : SFS) (sched : Nat → Bool) (term : List Char) (fuel : Nat)
        (p : String) (c : Nat),
      (isPfx "/proc".data p.data || isPfx "/sys/block".data p.data) = true →
      searchRec fs sched term (fuel + 1) p c = some ([], "", c)) ∧
    searchRec cycFS (fun _ => false) "link".data 9 "/r" 0 =
      some ([(0, SEvent.progress "/r"), (2, SEvent.matchFound "/r/link")],
        "", 2) := by
  refine ⟨searchRec_isSome, ?_, ?_, by decide⟩
  · intro fs sched term fuel p c d hl hsym
    simp only [searchRec, hl]
    by_cases hp : (isPfx "/proc".data p.data ||
        isPfx "/sys/block".data p.data) = true
    · rw [if_pos hp]
    · rw [if_neg hp, if_pos hsym]
  · intro fs sched term fuel p c hp
    simp only [searchRec]
    rw [if_pos hp]

/-- Witness for C5 on the concrete cyclic filesystem. -/
theorem search_symlink_safety_witness :
    ((cycFS.clean "/r" ∧ 1 ≤ 9 ∧ cycFS.maxPathLen + 2 ≤ 9 + "/r".length) ∧
     (searchRec cycFS (fun _ => false) "link".data 9 "/r" 0).isSome = true) ∧
    ((cycFS.lookup "/r/link" =
        some { isLink := true, files := ["readme.txt"], dirs := ["link"] }) ∧
     searchRec cycFS (fun _ => false) "link".data (8 + 1) "/r/link" 5 =
       some ([], "", 5)) ∧
    ((isPfx "/proc".data "/proc/1".data ||
        isPfx "/sys/block".data "/proc/1".data) = true ∧
     searchRec cycFS (fun _ => false) "link".data (8 + 1) "/proc/1" 0 =
       some ([], "", 0)) :=
  ⟨⟨⟨trivial, by decide, by decide⟩,
    search_symlink_safety.1 cycFS (fun _ => false) "link".data 9 "/r" 0
      trivial (by decide) (by decide)⟩,
   ⟨by decide,
    search_symlink_safety.2.1 cycFS (fun _ => false) "link".data 8 "/r/link" 5
      { isLink := true, files := ["readme.txt"], dirs := ["link"] }
      (by decide) rfl⟩,
   ⟨by decide,
    search_symlink_safety.2.2.1 cycFS (fun _ => false) "link".data 8
      "/proc/1" 0 (by decide)⟩⟩

/-- C6:  Once the cancellation flag is set (all checks from index
`k` on read it as set, the monotone flip-at-`k` schedule), the search
emits no notifications stamped after `k` — the flag is checked before
each file candidate and each directory recursion — the traversal unwinds
with an empty error string, and `run()` still ends with the final
`progressChanged("")` followed by exactly one `done()`. -/
theorem search_cancellation (fs : SFS) (k fuel : Nat) (root term : String)
    (body : List (Nat × SEvent)) (err : String) (cEnd : Nat)
    (hrun : searchRec fs (fun t => decide (k ≤ t))
        (term.data.map Char.toLower) fuel root 0 = some (body, err, cEnd)) :
    err = "" ∧
    (∀ te ∈ body, te.1 ≤ k) ∧
    runSearch fs (fun t => decide (k ≤ t)) root term fuel =
      some (body.map (fun te => RunEv.notif te.1 te.2) ++
        [RunEv.notif cEnd (SEvent.progress ""), RunEv.doneSig], cEnd) := by
  have herr : err = "" :=
    searchRec_err fs _ _ fuel root 0 (body, err, cEnd) hrun
  refine ⟨herr, ?_, ?_⟩
  · intro te hte
    exact searchRec_events_le fs k _ fuel root 0 (Nat.zero_le k)
      (body, err, cEnd) hrun te hte
  · subst herr
    simp [runSearch, hrun]

/-- Witness for C6: the cyclic filesystem with the flag set from check 1
on; only the initial progress notification (stamp 0 ≤ 1) is emitted,
and the run still ends with `progressChanged("")` and one `done()`. -/
theorem search_cancellation_witness :
    (searchRec cycFS (fun t => decide (1 ≤ t)) ("LINK".data.map Char.toLower)
        9 "/r" 0 = some ([(0, SEvent.progress "/r")], "", 2)) ∧
    ("" = "" ∧
     (∀ te ∈ [((0 : Nat), SEvent.progress "/r")], te.1 ≤ 1) ∧
     runSearch cycFS (fun t => decide (1 ≤ t)) "/r" "LINK" 9 =
       some ([RunEv.notif 0 (SEvent.progress "/r"),
         RunEv.notif 2 (SEvent.progress ""), RunEv.doneSig], 2)) :=
  ⟨by decide,
   search_cancellation cycFS 1 9 "/r" "LINK" [(0, SEvent.progress "/r")] "" 2
     (by decide)⟩

/-- C7:  `verifyOrAbort` failures: an empty directory name emits the
non-localized internal error, a missing folder emits "Folder does not
exist", an unreadable folder emits "No permission to read the folder" —
and in each case the run's whole output is that single error signal, so
no `entryAdded`, `entryRemoved` or `done` is emitted. -/
theorem worker_verify_errors (mode : Mode) (old : List StatFileInfo)
    (dir : String) (ex rd : Bool) (listing : List StatFileInfo) :
    (runWorker mode old "" ex rd listing =
      [WEvent.errorMsg "Internal worker error: empty directory name"]) ∧
    (dir ≠ "" → runWorker mode old dir false rd listing =
      [WEvent.errorMsg "Folder does not exist"]) ∧
    (dir ≠ "" → runWorker mode old dir true false listing =
      [WEvent.errorMsg "No permission to read the folder"]) := by
  refine ⟨by simp [runWorker], ?_, ?_⟩
  · intro h
    simp [runWorker, h]
  · intro h
    simp [runWorker, h]

/-- Witness for C7 at concrete directories. -/
theorem worker_verify_errors_witness :
    ("/tmp/gone" ≠ "" ∧
     runWorker Mode.FullMode [] "/tmp/gone" false true [] =
       [WEvent.errorMsg "Folder does not exist"]) ∧
    runWorker Mode.DiffMode oldListing "/tmp/t" true false newListing =
      [WEvent.errorMsg "No permission to read the folder"] :=
  ⟨⟨by decide,
    (worker_verify_errors Mode.FullMode [] "/tmp/gone" false true []).2.1
      (by decide)⟩,
   (worker_verify_errors Mode.DiffMode oldListing "/tmp/t" true false
      newListing).2.2 (by decide)⟩

end FileBrowser
